import Mathlib

/-!
Verification of the Hibernate Bind Visualizer core pipeline
(`src/hibernate_bind_visualizer_app.py`): the parse → normalize → bind
pipeline made of `parse_logs`, `normalize`, `bind_sql` and `process`.

Strings are modelled as lists of characters (`Chars`); diagnostic messages
are Lean `String`s built by concatenation, mirroring the Python f-strings.
The regular expression
`binding parameter \[(\d+)\] as \[(\w+)\] - \[(.*?)\]` is embedded as a
deterministic scanner: at each position the pattern either matches (greedy
digit and word spans, non-greedy value span stopping at the first `]` and
failing at a newline, since `.` does not cross lines) or the scan advances
one character, exactly as `re.finditer` does for this backtracking-free
pattern.  Character classes are the ASCII ones.
-/

namespace HBV

/-- Strings of the source program are modelled as lists of characters. -/
abbrev Chars := List Char

/-- ASCII word character, the class `\w` of the extraction pattern. -/
def isWordChar (c : Char) : Bool := c.isAlphanum || c = '_'

/-- One parsed binding event; embeds the `Parameter` record of the source
(fields `index`, `type`, `original`, `normalized`, `error`). -/
structure Parameter where
  index : Nat
  type : Chars
  original : Chars
  normalized : Chars
  error : Option String
deriving Repr, DecidableEq

/-- Set `STRING_TYPES` from the source. -/
def STRING_TYPES : List Chars := ["VARCHAR".data, "CHAR".data, "LONGVARCHAR".data]

/-- Set `NUMERIC_TYPES` from the source. -/
def NUMERIC_TYPES : List Chars := ["INTEGER".data, "BIGINT".data, "DECIMAL".data, "DOUBLE".data]

/-- Set `BOOLEAN_TYPES` from the source. -/
def BOOLEAN_TYPES : List Chars := ["BOOLEAN".data]

/-- Set `DATE_TYPES` from the source. -/
def DATE_TYPES : List Chars := ["DATE".data, "TIMESTAMP".data]

/-! ### The extraction pattern, embedded as a deterministic scanner -/

/-- Consume an exact literal piece of the pattern; `none` when the text does
not start with it. -/
def consumeLit : Chars → Chars → Option Chars
  | [], s => some s
  | _ :: _, [] => none
  | c :: cs, d :: ds => if d = c then consumeLit cs ds else none

/-- Maximal span of decimal digits (`\d+` is greedy, and the following `]`
is not a digit, so maximal munch is exact). Returns (span, rest). -/
def takeDigits : Chars → Chars × Chars
  | [] => ([], [])
  | c :: cs =>
    if c.isDigit then (c :: (takeDigits cs).1, (takeDigits cs).2)
    else ([], c :: cs)

/-- Maximal span of word characters (`\w+`, same greedy argument). -/
def takeWord : Chars → Chars × Chars
  | [] => ([], [])
  | c :: cs =>
    if isWordChar c then (c :: (takeWord cs).1, (takeWord cs).2)
    else ([], c :: cs)

/-- The non-greedy value capture `(.*?)\]`: the shortest run of characters
up to the first `]`; `.` does not match a newline, so a newline (or the end
of text) before any `]` means no match. Returns (value, rest after `]`). -/
def takeValue : Chars → Option (Chars × Chars)
  | [] => none
  | c :: cs =>
    if c = ']' then some ([], cs)
    else if c = '\n' then none
    else (takeValue cs).map (fun r => (c :: r.1, r.2))

/-- Conversion `int` on a run of decimal digits. -/
def digitsToNat (l : Chars) : Nat :=
  l.foldl (fun n c => 10 * n + (c.toNat - 48)) 0

/-- Attempt to match the whole binding-record pattern at the start of `s`;
on success returns (index, type span, value span, rest of the text). -/
def matchAt (s : Chars) : Option (Nat × Chars × Chars × Chars) :=
  match consumeLit "binding parameter [".data s with
  | none => none
  | some r1 =>
    if (takeDigits r1).1 = [] then none else
    match consumeLit "] as [".data (takeDigits r1).2 with
    | none => none
    | some r3 =>
      if (takeWord r3).1 = [] then none else
      match consumeLit "] - [".data (takeWord r3).2 with
      | none => none
      | some r5 =>
        match takeValue r5 with
        | none => none
        | some v => some (digitsToNat (takeDigits r1).1, (takeWord r3).1, v.1, v.2)

/-- Scan of `re.finditer`: left to right, on a match continue after it, else
advance one character.  Fuel-driven so that the definition is structural;
`findMatches` supplies fuel equal to the text length, which always
suffices because a match consumes at least one character. -/
def findMatchesAux : Nat → Chars → List (Nat × Chars × Chars)
  | 0, _ => []
  | Nat.succ fuel, s =>
    match matchAt s with
    | some (i, t, v, rest) => (i, t, v) :: findMatchesAux fuel rest
    | none => findMatchesAux fuel s.tail

/-- All matches of the extraction pattern, in text order. -/
def findMatches (s : Chars) : List (Nat × Chars × Chars) :=
  findMatchesAux s.length s

/-! ### parse_logs -/

/-- The duplicate-index warning f-string of `parse_logs`. -/
def dupMsg (i : Nat) : String :=
  "Duplicate parameter index " ++ toString i ++ "; ignoring subsequent value."

/-- The non-contiguity warning of `parse_logs`. -/
def contigMsg : String := "Parameter indexes are not contiguous starting at 1."

/-- The fresh `Parameter(...)` record built for a match: type upper-cased,
empty normalized text, no error. -/
def mkParam (i : Nat) (t v : Chars) : Parameter :=
  ⟨i, t.map Char.toUpper, v, [], none⟩

/-- Lookup in the `params` dictionary, keyed by index. -/
def lookupKey (i : Nat) : List (Nat × Parameter) → Option Parameter
  | [] => none
  | (k, p) :: ps => if k = i then some p else lookupKey i ps

/-- The match loop of `parse_logs`: thread the `params` dictionary
(modelled as an association list in insertion order, keys distinct) and
emit a duplicate warning for every discarded occurrence. -/
def collect : List (Nat × Chars × Chars) → List (Nat × Parameter) →
    List (Nat × Parameter) × List String
  | [], acc => (acc, [])
  | m :: ms, acc =>
    if (lookupKey m.1 acc).isSome then
      let r := collect ms acc
      (r.1, dupMsg m.1 :: r.2)
    else
      collect ms (acc ++ [(m.1, mkParam m.1 m.2.1 m.2.2)])

/-- Function `parse_logs` from the source: scan, deduplicate first-seen-wins, sort
surviving indexes ascending, check contiguity `1..N`, return the ordered
parameters and the warnings. -/
def parse_logs (text : Chars) : List Parameter × List String :=
  let res := collect (findMatches text) []
  let ordered_indexes := List.insertionSort (· ≤ ·) (res.1.map Prod.fst)
  let warnings :=
    if ordered_indexes ≠ [] ∧ ordered_indexes ≠ List.range' 1 ordered_indexes.length
    then res.2 ++ [contigMsg] else res.2
  (ordered_indexes.filterMap (fun i => lookupKey i res.1), warnings)

/-- The `params` dictionary of `parse_logs` after the match loop. -/
def pairsOf (text : Chars) : List (Nat × Parameter) := (collect (findMatches text) []).1

/-- The `ordered_indexes` list of `parse_logs`. -/
def orderedIndexesOf (text : Chars) : List Nat :=
  List.insertionSort (· ≤ ·) ((pairsOf text).map Prod.fst)

/-! ### normalize -/

/-- Lower-casing `str.lower` (ASCII). -/
def lowerStr (l : Chars) : Chars := l.map Char.toLower

/-- Trimming `str.strip` (ASCII whitespace at both ends). -/
def trimChars (l : Chars) : Chars :=
  ((l.dropWhile Char.isWhitespace).reverse.dropWhile Char.isWhitespace).reverse

/-- Quote escaping of the source: double every embedded single quote. -/
def escQuote : Chars → Chars
  | [] => []
  | c :: cs => if c = '\x27' then '\x27' :: '\x27' :: escQuote cs else c :: escQuote cs

/-- Splitting `val.split` at every comma, empty pieces kept. -/
def splitComma : Chars → List Chars
  | [] => [[]]
  | c :: cs =>
    if c = ',' then [] :: splitComma cs
    else
      match splitComma cs with
      | [] => [[c]]
      | p :: ps => (c :: p) :: ps

/-- Comma join of a list of pieces. -/
def joinComma : List Chars → Chars
  | [] => []
  | [x] => x
  | x :: y :: xs => x ++ ',' :: joinComma (y :: xs)

/-- The tail of the numeric pattern after the first digit span: either
nothing, or a dot followed by a second digit span reaching the end. -/
def isNumericTail : Chars → Bool
  | [] => true
  | c :: r2 =>
    if c = '.' then !(takeDigits r2).1.isEmpty && (takeDigits r2).2.isEmpty
    else false

/-- Full match of `-?\d+(\.\d+)?` (the numeric-value check of
`normalize`): optional leading minus, a non-empty greedy digit span, then
`isNumericTail`, consuming the whole text. -/
def isNumericLit (l : Chars) : Bool :=
  let body := if l.head? = some '-' then l.tail else l
  if (takeDigits body).1 = [] then false else isNumericTail (takeDigits body).2

/-- The IN-list expansion diagnostic f-string of `normalize`. -/
def expandMsg (i : Nat) : String :=
  "Expanded parameter " ++ toString i ++ " into IN list."

/-- The unknown-type diagnostic f-string of `normalize`. -/
def unknownMsg (t : Chars) : String :=
  "Unknown JDBC type " ++ String.mk t ++ "; inserted raw value."

/-- The invalid-boolean error f-string of `normalize`. -/
def boolErrMsg (v : Chars) : String :=
  "Invalid boolean value \x27" ++ String.mk v ++ "\x27"

/-- The non-numeric error f-string of `normalize`. -/
def numErrMsg (v t : Chars) : String :=
  "Non-numeric value \x27" ++ String.mk v ++ "\x27 for " ++ String.mk t

/-- Function `normalize` from the source.  The Python function mutates the parameter
record and appends to a shared diagnostics list; here it returns the
updated record together with the (at most one) diagnostic it appends. -/
def normalize (p : Parameter) (expand_in : Bool) : Parameter × List String :=
  let typ := p.type
  let val := p.original
  if lowerStr val = "null".data then
    ({ p with normalized := "NULL".data }, [])
  else if typ ∈ BOOLEAN_TYPES then
    let v := lowerStr val
    if v = "true".data then ({ p with normalized := "1".data }, [])
    else if v = "false".data then ({ p with normalized := "0".data }, [])
    else ({ p with error := some (boolErrMsg val) }, [])
  else if typ ∈ STRING_TYPES then
    if expand_in = true ∧ ',' ∈ val then
      let parts := (splitComma val).map trimChars
      let quoted := parts.map (fun q => '\x27' :: (escQuote q ++ ['\x27']))
      ({ p with normalized := '(' :: (joinComma quoted ++ [')']) },
        [expandMsg p.index])
    else ({ p with normalized := '\x27' :: (escQuote val ++ ['\x27']) }, [])
  else if typ ∈ NUMERIC_TYPES then
    if isNumericLit (trimChars val) then
      ({ p with normalized := trimChars val }, [])
    else ({ p with error := some (numErrMsg val typ) }, [])
  else if typ ∈ DATE_TYPES then
    ({ p with normalized := '\x27' :: (val ++ ['\x27']) }, [])
  else
    ({ p with normalized := val }, [unknownMsg typ])

/-! ### bind_sql and process -/

/-- Single replacement, as bound.replace of one `?`: replace the first `?` of the current
string, leave the string unchanged when it has no `?`. -/
def replaceFirstQ : Chars → Chars → Chars
  | [], _ => []
  | c :: cs, lit => if c = '?' then lit ++ cs else c :: replaceFirstQ cs lit

/-- Function `bind_sql` from the source: one first-occurrence replacement per
parameter, on the evolving string. -/
def bind_sql (sql : Chars) (params : List Parameter) : Chars :=
  params.foldl (fun bound p => replaceFirstQ bound p.normalized) sql

/-- Count of `?` characters in the template. -/
def countQ (s : Chars) : Nat := s.count '?'

/-- The per-parameter error diagnostic f-string of `process`. -/
def errMsg (p : Parameter) : String :=
  "Parameter " ++ toString p.index ++ " error: " ++ p.error.getD ""

/-- The count-mismatch diagnostic f-string of `process`. -/
def mismatchMsg (p n : Nat) : String :=
  "Placeholder count (" ++ toString p ++ ") does not match parameter count ("
    ++ toString n ++ ")."

/-- The dictionary returned by `process`. -/
structure BindResult where
  params : List Parameter
  placeholders : Nat
  param_count : Nat
  final_sql : Option Chars
  diagnostics : List String
deriving Repr, DecidableEq

/-- Function `process` from the source: parse, count placeholders, normalize each
parameter in order (collecting their diagnostics after the warnings), then
the validation gate: errors first, count mismatch second, else bind. -/
def process (sql logs : Chars) (expand_in : Bool) : BindResult :=
  let parsed := parse_logs logs
  let placeholders := countQ sql
  let normed := parsed.1.map (fun p => normalize p expand_in)
  let params := normed.map Prod.fst
  let diagnostics := parsed.2 ++ (normed.map Prod.snd).flatten
  let errors := params.filter (fun p => p.error.isSome)
  if errors ≠ [] then
    ⟨params, placeholders, params.length, none, diagnostics ++ errors.map errMsg⟩
  else if placeholders ≠ params.length then
    ⟨params, placeholders, params.length, none,
      diagnostics ++ [mismatchMsg placeholders params.length]⟩
  else
    ⟨params, placeholders, params.length, some (bind_sql sql params), diagnostics⟩

/-! ### Specification-side characterizations -/

/-- Positional substitution as the specification words it: walk the
template once and replace its k-th placeholder character with the k-th
literal, the literal text going straight to the output without being
rescanned; surplus placeholders (or a template without placeholders) are
left untouched.  Stated from the spec, to be compared with `bind_sql`. -/
def substPositional : Chars → List Chars → Chars
  | [], _ => []
  | c :: cs, [] => c :: substPositional cs []
  | c :: cs, l :: ls =>
    if c = '?' then l ++ substPositional cs ls
    else c :: substPositional cs (l :: ls)

/-- Specification-side description of which match occurrences the
first-seen-wins loop discards: those whose index was already seen. -/
def discardedAux : List (Nat × Chars × Chars) → List Nat → List (Nat × Chars × Chars)
  | [], _ => []
  | m :: ms, seen =>
    if m.1 ∈ seen then m :: discardedAux ms seen
    else discardedAux ms (m.1 :: seen)

/-! ## Lemmas about the scanner -/

theorem consumeLit_eq (pre : Chars) : ∀ s r, consumeLit pre s = some r → s = pre ++ r := by
  induction pre with
  | nil =>
    intro s r h
    simp only [consumeLit, Option.some.injEq] at h
    simp [h]
  | cons c cs ih =>
    intro s r h
    cases s with
    | nil => simp [consumeLit] at h
    | cons d ds =>
      simp only [consumeLit] at h
      split at h
      · next hd => simpa [hd] using ih ds r h
      · exact absurd h (by simp)

theorem takeValue_eq : ∀ s v r, takeValue s = some (v, r) →
    s = v ++ ']' :: r ∧ ']' ∉ v ∧ '\n' ∉ v := by
  intro s
  induction s with
  | nil => intro v r h; simp [takeValue] at h
  | cons c cs ih =>
    intro v r h
    simp only [takeValue] at h
    by_cases hc : c = ']'
    · rw [if_pos hc] at h
      simp only [Option.some.injEq, Prod.mk.injEq] at h
      obtain ⟨hv, hr⟩ := h
      subst hv; subst hr; subst hc
      simp
    · rw [if_neg hc] at h
      by_cases hn : c = '\n'
      · rw [if_pos hn] at h; simp at h
      · rw [if_neg hn] at h
        cases htv : takeValue cs with
        | none => rw [htv] at h; simp at h
        | some p =>
          rw [htv] at h
          simp only [Option.map_some', Option.some.injEq, Prod.mk.injEq] at h
          obtain ⟨hv, hr⟩ := h
          obtain ⟨he, h1, h2⟩ := ih p.1 p.2 (by rw [htv])
          subst hv; subst hr
          refine ⟨by simp [he], ?_, ?_⟩
          · simp only [List.mem_cons, not_or]
            exact ⟨fun hx => hc hx.symm, h1⟩
          · simp only [List.mem_cons, not_or]
            exact ⟨fun hx => hn hx.symm, h2⟩

theorem matchAt_value (s : Chars) (i : Nat) (t v rest : Chars)
    (h : matchAt s = some (i, t, v, rest)) : ']' ∉ v ∧ '\n' ∉ v := by
  unfold matchAt at h
  split at h
  · exact absurd h (by simp)
  · split at h
    · exact absurd h (by simp)
    · split at h
      · exact absurd h (by simp)
      · split at h
        · exact absurd h (by simp)
        · split at h
          · exact absurd h (by simp)
          · split at h
            · exact absurd h (by simp)
            · next p hp =>
              simp only [Option.some.injEq, Prod.mk.injEq] at h
              obtain ⟨-, -, hv, -⟩ := h
              obtain ⟨-, h1, h2⟩ := takeValue_eq _ p.1 p.2 (by rw [hp])
              exact hv ▸ ⟨h1, h2⟩

theorem findMatchesAux_value : ∀ fuel s, ∀ m ∈ findMatchesAux fuel s,
    ']' ∉ m.2.2 ∧ '\n' ∉ m.2.2 := by
  intro fuel
  induction fuel with
  | zero => intro s m h; simp [findMatchesAux] at h
  | succ f ih =>
    intro s m h
    cases hm : matchAt s with
    | some q =>
      obtain ⟨i, t, v, rest⟩ := q
      rw [findMatchesAux, hm] at h
      rcases List.mem_cons.mp h with h' | h'
      · subst h'; exact matchAt_value s i t v rest hm
      · exact ih rest m h'
    | none =>
      rw [findMatchesAux, hm] at h
      exact ih s.tail m h

theorem findMatches_value (s : Chars) : ∀ m ∈ findMatches s,
    ']' ∉ m.2.2 ∧ '\n' ∉ m.2.2 :=
  findMatchesAux_value s.length s

/-! ## Lemmas about the dictionary and the match loop -/

theorem lookupKey_mem : ∀ l (i : Nat) p, lookupKey i l = some p → (i, p) ∈ l := by
  intro l
  induction l with
  | nil => intro i p h; simp [lookupKey] at h
  | cons x xs ih =>
    intro i p h
    obtain ⟨k, q⟩ := x
    simp only [lookupKey] at h
    split at h
    · next hk =>
      simp only [Option.some.injEq] at h
      subst hk; subst h; exact List.mem_cons_self _ _
    · exact List.mem_cons_of_mem _ (ih i p h)

theorem lookupKey_isSome_iff : ∀ l (i : Nat),
    (lookupKey i l).isSome = true ↔ i ∈ l.map Prod.fst := by
  intro l
  induction l with
  | nil => intro i; simp [lookupKey]
  | cons x xs ih =>
    intro i
    obtain ⟨k, q⟩ := x
    simp only [lookupKey, List.map_cons, List.mem_cons]
    split
    · next hk => subst hk; simp
    · next hk =>
      rw [ih i]
      constructor
      · exact Or.inr
      · rintro (h | h)
        · exact absurd h.symm hk
        · exact h

theorem lookupKey_append : ∀ (l₁ l₂ : List (Nat × Parameter)) (i : Nat),
    lookupKey i (l₁ ++ l₂) =
      match lookupKey i l₁ with
      | some p => some p
      | none => lookupKey i l₂ := by
  intro l₁
  induction l₁ with
  | nil => intro l₂ i; simp [lookupKey]
  | cons x xs ih =>
    intro l₂ i
    obtain ⟨k, q⟩ := x
    simp only [List.cons_append, lookupKey]
    split
    · rfl
    · exact ih l₂ i

theorem collect_fst_mem : ∀ ms acc pr, pr ∈ (collect ms acc).1 →
    pr ∈ acc ∨ ∃ m ∈ ms, pr = (m.1, mkParam m.1 m.2.1 m.2.2) := by
  intro ms
  induction ms with
  | nil => intro acc pr h; simp only [collect] at h; exact Or.inl h
  | cons m ms ih =>
    intro acc pr h
    by_cases hl : (lookupKey m.1 acc).isSome = true
    · rw [collect, if_pos hl] at h
      rcases ih acc pr h with h' | ⟨m', hm', he⟩
      · exact Or.inl h'
      · exact Or.inr ⟨m', List.mem_cons_of_mem _ hm', he⟩
    · rw [collect, if_neg hl] at h
      rcases ih _ pr h with h' | ⟨m', hm', he⟩
      · rcases List.mem_append.mp h' with ha | hb
        · exact Or.inl ha
        · simp only [List.mem_singleton] at hb
          exact Or.inr ⟨m, List.mem_cons_self _ _, hb⟩
      · exact Or.inr ⟨m', List.mem_cons_of_mem _ hm', he⟩

theorem collect_index : ∀ ms acc, (∀ pr ∈ acc, (pr : Nat × Parameter).2.index = pr.1) →
    ∀ pr ∈ (collect ms acc).1, pr.2.index = pr.1 := by
  intro ms acc hacc pr h
  rcases collect_fst_mem ms acc pr h with h' | ⟨m, -, he⟩
  · exact hacc pr h'
  · subst he; rfl

theorem collect_fst_nodup : ∀ ms acc, ((acc.map Prod.fst).Nodup) →
    (((collect ms acc).1.map Prod.fst).Nodup) := by
  intro ms
  induction ms with
  | nil => intro acc h; simpa [collect] using h
  | cons m ms ih =>
    intro acc h
    by_cases hl : (lookupKey m.1 acc).isSome = true
    · rw [collect, if_pos hl]
      exact ih acc h
    · rw [collect, if_neg hl]
      refine ih _ ?_
      rw [List.map_append]
      refine List.Nodup.append h (by simp) ?_
      intro a ha hb
      simp only [List.map_cons, List.map_nil, List.mem_singleton] at hb
      subst hb
      exact hl ((lookupKey_isSome_iff acc m.1).mpr ha)

theorem collect_lookup : ∀ ms acc (i : Nat),
    lookupKey i (collect ms acc).1 =
      match lookupKey i acc with
      | some p => some p
      | none => (ms.find? (fun m => m.1 == i)).map (fun m => mkParam m.1 m.2.1 m.2.2) := by
  intro ms
  induction ms with
  | nil =>
    intro acc i
    simp only [collect, List.find?_nil, Option.map_none']
    cases lookupKey i acc <;> rfl
  | cons m ms ih =>
    intro acc i
    by_cases hi : m.1 = i
    · subst hi
      by_cases hl : (lookupKey m.1 acc).isSome = true
      · rw [collect, if_pos hl, ih acc m.1]
        obtain ⟨p, hp⟩ := Option.isSome_iff_exists.mp hl
        rw [hp]
      · rw [collect, if_neg hl, ih _ m.1]
        rw [lookupKey_append]
        rw [Option.not_isSome_iff_eq_none.mp hl]
        rw [List.find?_cons_of_pos _ (by simp)]
        simp [lookupKey]
    · by_cases hl : (lookupKey m.1 acc).isSome = true
      · rw [collect, if_pos hl, ih acc i]
        rw [List.find?_cons_of_neg _ (by simp [hi])]
      · rw [collect, if_neg hl, ih _ i]
        rw [lookupKey_append]
        rw [List.find?_cons_of_neg _ (by simp [hi])]
        cases h : lookupKey i acc with
        | some p => rfl
        | none => simp only [lookupKey, if_neg hi]

theorem discardedAux_congr : ∀ ms (s₁ s₂ : List Nat), (∀ x, x ∈ s₁ ↔ x ∈ s₂) →
    discardedAux ms s₁ = discardedAux ms s₂ := by
  intro ms
  induction ms with
  | nil => intro s₁ s₂ _; simp [discardedAux]
  | cons m ms ih =>
    intro s₁ s₂ hs
    simp only [discardedAux]
    by_cases h1 : m.1 ∈ s₁
    · rw [if_pos h1, if_pos ((hs m.1).mp h1), ih s₁ s₂ hs]
    · rw [if_neg h1, if_neg (fun h => h1 ((hs m.1).mpr h))]
      refine ih _ _ ?_
      intro x
      simp only [List.mem_cons]
      rw [hs x]

theorem collect_snd : ∀ ms acc, (collect ms acc).2 =
    (discardedAux ms (acc.map Prod.fst)).map (fun m => dupMsg m.1) := by
  intro ms
  induction ms with
  | nil => intro acc; simp [collect, discardedAux]
  | cons m ms ih =>
    intro acc
    by_cases hl : (lookupKey m.1 acc).isSome = true
    · have hmem : m.1 ∈ acc.map Prod.fst := (lookupKey_isSome_iff acc m.1).mp hl
      rw [collect, if_pos hl]
      simp only [discardedAux, if_pos hmem, List.map_cons]
      rw [ih acc]
    · have hmem : m.1 ∉ acc.map Prod.fst := fun h => hl ((lookupKey_isSome_iff acc m.1).mpr h)
      rw [collect, if_neg hl]
      simp only [discardedAux, if_neg hmem]
      rw [ih _]
      refine congrArg _ (discardedAux_congr ms _ _ ?_)
      intro x
      simp only [List.map_append, List.map_cons, List.map_nil, List.mem_append,
        List.mem_singleton, List.mem_cons]
      tauto

/-! ## Lemmas about parse_logs -/

theorem dupMsg_ne_contigMsg (i : Nat) : dupMsg i ≠ contigMsg := by
  intro h
  have h2 : (dupMsg i).data.head? = contigMsg.data.head? := by rw [h]
  have h3 : (dupMsg i).data.head? = some 'D' := by
    show (("Duplicate parameter index "
        ++ (toString i ++ "; ignoring subsequent value.")).data).head? = some 'D'
    rw [String.data_append]
    have hD : "Duplicate parameter index ".data
        = 'D' :: "uplicate parameter index ".data := by decide
    rw [hD]
    rfl
  have h4 : contigMsg.data.head? = some 'P' := by decide
  rw [h3, h4] at h2
  exact absurd h2 (by decide)

theorem parse_logs_fst (text : Chars) :
    (parse_logs text).1 =
      (orderedIndexesOf text).filterMap (fun i => lookupKey i (pairsOf text)) := rfl

theorem parse_logs_snd (text : Chars) :
    (parse_logs text).2 =
      if orderedIndexesOf text ≠ []
          ∧ orderedIndexesOf text ≠ List.range' 1 (orderedIndexesOf text).length
      then (collect (findMatches text) []).2 ++ [contigMsg]
      else (collect (findMatches text) []).2 := rfl

theorem filterMap_lookup_map_index (pairs : List (Nat × Parameter))
    (hidx : ∀ pr ∈ pairs, (pr : Nat × Parameter).2.index = pr.1) :
    ∀ l : List Nat, (∀ i ∈ l, i ∈ pairs.map Prod.fst) →
      ((l.filterMap (fun i => lookupKey i pairs)).map (·.index)) = l := by
  intro l
  induction l with
  | nil => intro _; simp
  | cons i l ih =>
    intro hmem
    have hs : (lookupKey i pairs).isSome = true :=
      (lookupKey_isSome_iff pairs i).mpr (hmem i (List.mem_cons_self _ _))
    obtain ⟨p, hp⟩ := Option.isSome_iff_exists.mp hs
    rw [List.filterMap_cons, hp, List.map_cons]
    rw [ih (fun j hj => hmem j (List.mem_cons_of_mem _ hj))]
    have : p.index = i := hidx (i, p) (lookupKey_mem pairs i p hp)
    rw [this]

theorem parse_logs_map_index (text : Chars) :
    (parse_logs text).1.map (·.index) = orderedIndexesOf text := by
  rw [parse_logs_fst]
  refine filterMap_lookup_map_index _ (collect_index _ _ (by simp)) _ ?_
  intro i hi
  exact (List.perm_insertionSort (· ≤ ·) _).mem_iff.mp hi

theorem parse_logs_mem (text : Chars) : ∀ p ∈ (parse_logs text).1,
    lookupKey p.index (pairsOf text) = some p := by
  intro p hp
  rw [parse_logs_fst] at hp
  obtain ⟨i, hi, hlk⟩ := List.mem_filterMap.mp hp
  have hidx : p.index = i :=
    collect_index (findMatches text) [] (by simp) (i, p) (lookupKey_mem _ i p hlk)
  rw [hidx]
  exact hlk

theorem parse_logs_from_match (text : Chars) : ∀ p ∈ (parse_logs text).1,
    ∃ m ∈ findMatches text, p = mkParam m.1 m.2.1 m.2.2 := by
  intro p hp
  have h := lookupKey_mem _ _ _ (parse_logs_mem text p hp)
  rcases collect_fst_mem _ [] _ h with h' | ⟨m, hm, he⟩
  · simp at h'
  · exact ⟨m, hm, congrArg Prod.snd he⟩

theorem orderedIndexesOf_nodup (text : Chars) : (orderedIndexesOf text).Nodup :=
  ((List.perm_insertionSort (· ≤ ·) _).nodup_iff).mpr (collect_fst_nodup _ [] (by simp))

theorem pairwise_lt_of_le_nodup : ∀ l : List Nat,
    List.Pairwise (· ≤ ·) l → l.Nodup → List.Pairwise (· < ·) l := by
  intro l
  induction l with
  | nil => intro _ _; exact List.Pairwise.nil
  | cons a l ih =>
    intro hle hnd
    rw [List.pairwise_cons] at hle ⊢
    rw [List.nodup_cons] at hnd
    refine ⟨fun b hb => lt_of_le_of_ne (hle.1 b hb) ?_, ih hle.2 hnd.2⟩
    intro hab
    exact hnd.1 (hab ▸ hb)

theorem parse_logs_sorted (text : Chars) :
    List.Pairwise (fun p q : Parameter => p.index < q.index) (parse_logs text).1 := by
  have hlt : List.Pairwise (· < ·) (orderedIndexesOf text) :=
    pairwise_lt_of_le_nodup _ (List.sorted_insertionSort _ _) (orderedIndexesOf_nodup text)
  rw [← parse_logs_map_index text] at hlt
  exact List.pairwise_map.mp hlt

theorem parse_logs_warnings (text : Chars) :
    (parse_logs text).2 =
      (discardedAux (findMatches text) []).map (fun m => dupMsg m.1)
        ++ (if orderedIndexesOf text ≠ []
              ∧ orderedIndexesOf text ≠ List.range' 1 (orderedIndexesOf text).length
            then [contigMsg] else []) := by
  rw [parse_logs_snd]
  have hc : (collect (findMatches text) []).2
      = (discardedAux (findMatches text) []).map (fun m => dupMsg m.1) := by
    simpa using collect_snd (findMatches text) []
  split
  · rw [hc]
  · rw [hc, List.append_nil]

theorem contig_cond_iff (text : Chars) :
    (orderedIndexesOf text ≠ []
      ∧ orderedIndexesOf text ≠ List.range' 1 (orderedIndexesOf text).length)
    ↔ ((parse_logs text).1 ≠ []
      ∧ (parse_logs text).1.map (·.index)
          ≠ List.range' 1 (parse_logs text).1.length) := by
  rw [← parse_logs_map_index text, List.length_map]
  simp [List.map_eq_nil_iff]

/-! ## The claims -/

/-- C7: for every log text, the binding list returned by extraction is
strictly ascending in `index`, and the warning
"Parameter indexes are not contiguous starting at 1." is in the warning
list exactly when the (sorted) index sequence is non-empty and differs
from `1, 2, …, N` with `N` the number of distinct indices. -/
theorem c7_sorted_and_contiguity_warning (text : Chars) :
    List.Pairwise (fun p q : Parameter => p.index < q.index) (parse_logs text).1
    ∧ (contigMsg ∈ (parse_logs text).2 ↔
        ((parse_logs text).1 ≠ []
          ∧ (parse_logs text).1.map (·.index)
              ≠ List.range' 1 (parse_logs text).1.length)) := by
  refine ⟨parse_logs_sorted text, ?_⟩
  rw [parse_logs_warnings text, ← contig_cond_iff text]
  by_cases hcond : (orderedIndexesOf text ≠ []
      ∧ orderedIndexesOf text ≠ List.range' 1 (orderedIndexesOf text).length)
  · rw [if_pos hcond]
    simp [hcond]
  · rw [if_neg hcond, List.append_nil]
    constructor
    · intro hmem
      obtain ⟨m, -, he⟩ := List.mem_map.mp hmem
      exact absurd he (dupMsg_ne_contigMsg m.1)
    · intro h
      exact absurd h hcond

/-- Witness for C7 at a concrete log whose only index is 2: the index
list `[2]` differs from `[1]`, so the warning is emitted. -/
theorem c7_witness :
    contigMsg ∈ (parse_logs ("binding parameter [2] as [INTEGER] - [1]".data)).2 :=
  (c7_sorted_and_contiguity_warning
      ("binding parameter [2] as [INTEGER] - [1]".data)).2.mpr
    ⟨by decide, by decide⟩

/-- C6: duplicates are first-seen-wins.  The warning list is exactly one
duplicate warning per discarded occurrence (in scan order), followed by at
most the contiguity warning; every returned binding carries the type and
raw value of the first match with its index; and no index is represented
twice in the result. -/
theorem c6_first_seen_wins (text : Chars) :
    (∃ tail, (parse_logs text).2
        = ((discardedAux (findMatches text) []).map (fun m => dupMsg m.1)) ++ tail
      ∧ (tail = [] ∨ tail = [contigMsg]))
    ∧ (∀ p ∈ (parse_logs text).1,
        ((findMatches text).find? (fun m => m.1 == p.index)).map
            (fun m => mkParam m.1 m.2.1 m.2.2) = some p)
    ∧ ((parse_logs text).1.map (·.index)).Nodup := by
  refine ⟨?_, ?_, ?_⟩
  · rw [parse_logs_warnings text]
    split
    · exact ⟨[contigMsg], rfl, Or.inr rfl⟩
    · exact ⟨[], rfl, Or.inl rfl⟩
  · intro p hp
    have h := parse_logs_mem text p hp
    rw [pairsOf, collect_lookup (findMatches text) [] p.index] at h
    exact h
  · rw [parse_logs_map_index text]
    exact orderedIndexesOf_nodup text

/-- Witness for C6 at a log binding index 1 twice: the surviving binding
holds the first raw value `1`. -/
theorem c6_witness :
    ((findMatches
          ("binding parameter [1] as [INTEGER] - [1]\nbinding parameter [1] as [INTEGER] - [2]".data)).find?
        (fun m => m.1 == (⟨1, "INTEGER".data, ['1'], [], none⟩ : Parameter).index)).map
        (fun m => mkParam m.1 m.2.1 m.2.2)
      = some ⟨1, "INTEGER".data, ['1'], [], none⟩ :=
  (c6_first_seen_wins
      ("binding parameter [1] as [INTEGER] - [1]\nbinding parameter [1] as [INTEGER] - [2]".data)).2.1
    ⟨1, "INTEGER".data, ['1'], [], none⟩ (by decide)

/-- C10: no raw value captured by extraction contains `]` or a newline. -/
theorem c10_raw_value_charset (text : Chars) :
    ∀ p ∈ (parse_logs text).1, ']' ∉ p.original ∧ '\n' ∉ p.original := by
  intro p hp
  obtain ⟨m, hm, he⟩ := parse_logs_from_match text p hp
  subst he
  exact findMatches_value text m hm

/-- Witness for C10 at a value containing `[`: the capture stops at the
first `]` and contains neither `]` nor a newline. -/
theorem c10_witness :
    ']' ∉ (⟨1, "INTEGER".data, ['a', '[', 'b'], [], none⟩ : Parameter).original
    ∧ '\n' ∉ (⟨1, "INTEGER".data, ['a', '[', 'b'], [], none⟩ : Parameter).original :=
  c10_raw_value_charset ("binding parameter [1] as [INTEGER] - [a[b]".data)
    ⟨1, "INTEGER".data, ['a', '[', 'b'], [], none⟩ (by decide)

/-- C9 (amended): extraction does not guarantee positive indexes — a log
record declaring index 0 yields a binding with index 0 — but whenever a
binding with index 0 is present the non-contiguity warning is emitted. -/
theorem c9_amended_index_zero_warns (text : Chars) (p : Parameter)
    (hp : p ∈ (parse_logs text).1) (h0 : p.index = 0) :
    contigMsg ∈ (parse_logs text).2 := by
  rw [parse_logs_warnings text]
  have hmem0 : (0 : Nat) ∈ (parse_logs text).1.map (·.index) :=
    List.mem_map.mpr ⟨p, hp, h0⟩
  rw [parse_logs_map_index text] at hmem0
  have hcond : orderedIndexesOf text ≠ []
      ∧ orderedIndexesOf text ≠ List.range' 1 (orderedIndexesOf text).length := by
    constructor
    · intro h
      rw [h] at hmem0
      simp at hmem0
    · intro h
      rw [h] at hmem0
      have := List.mem_range'_1.mp hmem0
      omega
  rw [if_pos hcond]
  simp

/-- Counterexample for C9 as stated: the log record
`binding parameter [0] as [INTEGER] - [5]` produces a binding whose index
is 0. -/
theorem c9_counterexample :
    (parse_logs ("binding parameter [0] as [INTEGER] - [5]".data)).1.map
      (fun p => p.index) = [0] := by decide

/-- Witness for the amended C9 at that same log record. -/
theorem c9_witness :
    contigMsg ∈ (parse_logs ("binding parameter [0] as [INTEGER] - [5]".data)).2 :=
  c9_amended_index_zero_warns ("binding parameter [0] as [INTEGER] - [5]".data)
    ⟨0, "INTEGER".data, ['5'], [], none⟩ (by decide) rfl

/-- C5: a raw value equal, case-insensitively and without trimming, to the
text "null" normalizes to the SQL keyword `NULL` before any type dispatch,
for every declared type, leaving the error field untouched and emitting no
diagnostic. -/
theorem c5_null_special_case (p : Parameter) (e : Bool)
    (h : lowerStr p.original = "null".data) :
    normalize p e = ({ p with normalized := "NULL".data }, []) := by
  simp only [normalize]
  rw [if_pos h]

/-- Witness for C5: raw value `NuLL` of a BOOLEAN-typed binding. -/
theorem c5_witness :
    normalize ⟨3, "BOOLEAN".data, "NuLL".data, [], none⟩ true
      = (⟨3, "BOOLEAN".data, "NuLL".data, "NULL".data, none⟩, []) :=
  c5_null_special_case ⟨3, "BOOLEAN".data, "NuLL".data, [], none⟩ true (by decide)

/-- C4: for a string-typed binding whose raw value is not "null"
(case-insensitively): with expansion enabled and a comma present, the
literal is the parenthesized comma-join of the split-and-trimmed parts,
each quote-doubled and single-quoted, plus the IN-list diagnostic;
otherwise the literal is the quote-doubled raw value in single quotes with
no diagnostic; the error field is untouched in both cases. -/
theorem c4_string_normalization (p : Parameter) (e : Bool)
    (hty : p.type ∈ STRING_TYPES)
    (hnull : lowerStr p.original ≠ "null".data) :
    (e = true ∧ ',' ∈ p.original →
      normalize p e =
        ({ p with normalized := '(' :: (joinComma
            (((splitComma p.original).map trimChars).map
              (fun q => '\x27' :: (escQuote q ++ ['\x27']))) ++ [')']) },
          [expandMsg p.index]))
    ∧ (¬(e = true ∧ ',' ∈ p.original) →
      normalize p e =
        ({ p with normalized := '\x27' :: (escQuote p.original ++ ['\x27']) }, [])) := by
  have hbool : p.type ∉ BOOLEAN_TYPES := by
    simp only [STRING_TYPES, List.mem_cons, List.not_mem_nil, or_false] at hty
    rcases hty with h | h | h <;> rw [h] <;> decide
  constructor
  · intro hc
    simp only [normalize]
    rw [if_neg hnull, if_neg hbool, if_pos hty, if_pos hc]
  · intro hnc
    simp only [normalize]
    rw [if_neg hnull, if_neg hbool, if_pos hty, if_neg hnc]

/-- Witness for C4: raw `REAL,FAKE` expands to `('REAL','FAKE')` with the
IN-list diagnostic; raw `it's` (no comma) becomes `'it''s'` with no
diagnostic and no error. -/
theorem c4_witness :
    (normalize ⟨10, "VARCHAR".data, "REAL,FAKE".data, [], none⟩ true).1.normalized
        = ['(', '\x27', 'R', 'E', 'A', 'L', '\x27', ',', '\x27', 'F', 'A', 'K', 'E', '\x27', ')']
    ∧ (normalize ⟨10, "VARCHAR".data, "REAL,FAKE".data, [], none⟩ true).2 = [expandMsg 10]
    ∧ (normalize ⟨2, "CHAR".data, ['i', 't', '\x27', 's'], [], none⟩ true).1.normalized
        = ['\x27', 'i', 't', '\x27', '\x27', 's', '\x27']
    ∧ (normalize ⟨2, "CHAR".data, ['i', 't', '\x27', 's'], [], none⟩ true).2 = []
    ∧ (normalize ⟨2, "CHAR".data, ['i', 't', '\x27', 's'], [], none⟩ true).1.error = none := by
  have h1 := (c4_string_normalization ⟨10, "VARCHAR".data, "REAL,FAKE".data, [], none⟩ true
    (by decide) (by decide)).1 ⟨rfl, by decide⟩
  have h2 := (c4_string_normalization ⟨2, "CHAR".data, ['i', 't', '\x27', 's'], [], none⟩ true
    (by decide) (by decide)).2 (by intro hc; exact absurd hc.2 (by decide))
  refine ⟨?_, ?_, ?_, ?_, ?_⟩
  · rw [h1]; decide
  · rw [h1]
  · rw [h2]; decide
  · rw [h2]
  · rw [h2]

/-! ## Lemmas about substitution -/

theorem replaceFirstQ_of_not_mem : ∀ s lit, '?' ∉ s → replaceFirstQ s lit = s := by
  intro s lit h
  induction s with
  | nil => rfl
  | cons c cs ih =>
    simp only [List.mem_cons, not_or] at h
    have hc : ¬ c = '?' := fun hc => h.1 hc.symm
    rw [replaceFirstQ, if_neg hc, ih h.2]

theorem replaceFirstQ_append_left : ∀ a b lit, '?' ∉ a →
    replaceFirstQ (a ++ b) lit = a ++ replaceFirstQ b lit := by
  intro a
  induction a with
  | nil => intro b lit _; rfl
  | cons c cs ih =>
    intro b lit h
    simp only [List.mem_cons, not_or] at h
    have hc : ¬ c = '?' := fun hc => h.1 hc.symm
    rw [List.cons_append, replaceFirstQ, if_neg hc, ih b lit h.2, List.cons_append]

theorem bind_sql_cons (s : Chars) (p : Parameter) (ps : List Parameter) :
    bind_sql s (p :: ps) = bind_sql (replaceFirstQ s p.normalized) ps := rfl

theorem bind_sql_nil (s : Chars) : bind_sql s [] = s := rfl

theorem bind_sql_append_left : ∀ (ps : List Parameter) a b, '?' ∉ a →
    bind_sql (a ++ b) ps = a ++ bind_sql b ps := by
  intro ps
  induction ps with
  | nil => intro a b _; rfl
  | cons p ps ih =>
    intro a b h
    rw [bind_sql_cons, replaceFirstQ_append_left a b _ h, ih _ _ h, bind_sql_cons]

theorem substPositional_nil_lits : ∀ s, substPositional s [] = s := by
  intro s
  induction s with
  | nil => rfl
  | cons c cs ih => rw [substPositional, ih]

theorem substPositional_of_not_mem : ∀ s lits, '?' ∉ s → substPositional s lits = s := by
  intro s
  induction s with
  | nil => intro lits _; rfl
  | cons c cs ih =>
    intro lits h
    simp only [List.mem_cons, not_or] at h
    have hc : ¬ c = '?' := fun hc => h.1 hc.symm
    cases lits with
    | nil => rw [substPositional, ih [] h.2]
    | cons l ls => rw [substPositional, if_neg hc, ih (l :: ls) h.2]

theorem substPositional_append_left : ∀ a b lits, '?' ∉ a →
    substPositional (a ++ b) lits = a ++ substPositional b lits := by
  intro a
  induction a with
  | nil => intro b lits _; rfl
  | cons c cs ih =>
    intro b lits h
    simp only [List.mem_cons, not_or] at h
    have hc : ¬ c = '?' := fun hc => h.1 hc.symm
    cases lits with
    | nil => rw [List.cons_append, substPositional, ih b [] h.2, List.cons_append]
    | cons l ls =>
      rw [List.cons_append, substPositional, if_neg hc, ih b (l :: ls) h.2,
        List.cons_append]

theorem first_q_decomp : ∀ s : Chars, '?' ∉ s ∨ ∃ a b, s = a ++ '?' :: b ∧ '?' ∉ a := by
  intro s
  induction s with
  | nil => exact Or.inl (by simp)
  | cons c cs ih =>
    by_cases hc : c = '?'
    · subst hc
      exact Or.inr ⟨[], cs, rfl, by simp⟩
    · rcases ih with h | ⟨a, b, he, ha⟩
      · refine Or.inl ?_
        simp only [List.mem_cons, not_or]
        exact ⟨fun hx => hc hx.symm, h⟩
      · refine Or.inr ⟨c :: a, b, by rw [he, List.cons_append], ?_⟩
        simp only [List.mem_cons, not_or]
        exact ⟨fun hx => hc hx.symm, ha⟩

theorem bind_sql_eq_subst : ∀ (ps : List Parameter) (sql : Chars),
    (∀ p ∈ ps, '?' ∉ p.normalized) →
    bind_sql sql ps = substPositional sql (ps.map (·.normalized)) := by
  intro ps
  induction ps with
  | nil =>
    intro sql _
    rw [bind_sql_nil, List.map_nil, substPositional_nil_lits]
  | cons p ps ih =>
    intro sql h
    rcases first_q_decomp sql with hq | ⟨a, b, he, ha⟩
    · rw [bind_sql_cons, replaceFirstQ_of_not_mem _ _ hq,
        ih sql (fun q hq' => h q (List.mem_cons_of_mem _ hq')),
        substPositional_of_not_mem _ _ hq, substPositional_of_not_mem _ _ hq]
    · subst he
      have hpq : '?' ∉ p.normalized := h p (List.mem_cons_self _ _)
      have hstep : replaceFirstQ (a ++ '?' :: b) p.normalized
          = a ++ (p.normalized ++ b) := by
        rw [replaceFirstQ_append_left _ _ _ ha]
        simp [replaceFirstQ]
      have hnapb : '?' ∉ a ++ p.normalized := by
        simp only [List.mem_append, not_or]
        exact ⟨ha, hpq⟩
      calc bind_sql (a ++ '?' :: b) (p :: ps)
          = bind_sql (a ++ (p.normalized ++ b)) ps := by rw [bind_sql_cons, hstep]
        _ = bind_sql ((a ++ p.normalized) ++ b) ps := by rw [List.append_assoc]
        _ = (a ++ p.normalized) ++ bind_sql b ps := bind_sql_append_left ps _ b hnapb
        _ = (a ++ p.normalized) ++ substPositional b (ps.map (·.normalized)) := by
              rw [ih b (fun q hq' => h q (List.mem_cons_of_mem _ hq'))]
        _ = substPositional (a ++ '?' :: b) ((p :: ps).map (·.normalized)) := by
              rw [List.map_cons, substPositional_append_left a _ _ ha]
              simp [substPositional, List.append_assoc]

/-- Counterexample for C2 as stated: the gate passes (two placeholders,
two clean bindings) yet the bound SQL is not the positional substitution,
because the first substituted literal `'a?b'` contains `?` and the second
replacement lands inside it. -/
theorem c2_counterexample :
    ((process ("? ?".data)
        ("binding parameter [1] as [VARCHAR] - [a?b]\nbinding parameter [2] as [VARCHAR] - [c]".data)
        true).final_sql).isSome = true
    ∧ (process ("? ?".data)
        ("binding parameter [1] as [VARCHAR] - [a?b]\nbinding parameter [2] as [VARCHAR] - [c]".data)
        true).final_sql
      ≠ some (substPositional ("? ?".data)
          ((process ("? ?".data)
              ("binding parameter [1] as [VARCHAR] - [a?b]\nbinding parameter [2] as [VARCHAR] - [c]".data)
              true).params.map (·.normalized))) := by
  decide

/-- C2 (amended): when no substituted literal itself contains the
placeholder character, `bind_sql` is exactly the positional substitution
of the spec: the k-th `?` of the original template receives the k-th
binding's normalized literal. -/
theorem c2_amended_positional_substitution (sql : Chars) (ps : List Parameter)
    (h : ∀ p ∈ ps, '?' ∉ p.normalized) :
    bind_sql sql ps = substPositional sql (ps.map (·.normalized)) :=
  bind_sql_eq_subst ps sql h

/-- Witness for the amended C2 on a concrete two-placeholder template. -/
theorem c2_witness :
    bind_sql ("a=? b=?".data)
        [⟨1, "INTEGER".data, ['5'], ['5'], none⟩, ⟨2, "INTEGER".data, ['7'], ['7'], none⟩]
      = substPositional ("a=? b=?".data)
          ([⟨1, "INTEGER".data, ['5'], ['5'], none⟩,
            ⟨2, "INTEGER".data, ['7'], ['7'], none⟩].map (Parameter.normalized)) :=
  c2_amended_positional_substitution ("a=? b=?".data)
    [⟨1, "INTEGER".data, ['5'], ['5'], none⟩, ⟨2, "INTEGER".data, ['7'], ['7'], none⟩]
    (by decide)

/-! ## Lemmas about numeric literals -/

theorem takeDigits_append : ∀ s : Chars, (takeDigits s).1 ++ (takeDigits s).2 = s := by
  intro s
  induction s with
  | nil => rfl
  | cons c cs ih =>
    by_cases hd : c.isDigit
    · rw [takeDigits, if_pos hd, List.cons_append, ih]
    · rw [takeDigits, if_neg hd]
      rfl

theorem takeDigits_digits : ∀ s : Chars, ∀ c ∈ (takeDigits s).1, c.isDigit = true := by
  intro s
  induction s with
  | nil => intro c hc; simp [takeDigits] at hc
  | cons x cs ih =>
    intro c hc
    by_cases hd : x.isDigit
    · rw [takeDigits, if_pos hd] at hc
      rcases List.mem_cons.mp hc with he | hr
      · exact he ▸ hd
      · exact ih c hr
    · rw [takeDigits, if_neg hd] at hc
      simp at hc

theorem isNumericTail_chars : ∀ t, isNumericTail t = true →
    ∀ c ∈ t, c.isDigit = true ∨ c = '.' := by
  intro t h c hc
  cases t with
  | nil => simp at hc
  | cons x r2 =>
    rw [isNumericTail] at h
    by_cases hx : x = '.'
    · rw [if_pos hx] at h
      simp only [Bool.and_eq_true, Bool.not_eq_true', List.isEmpty_eq_false,
        List.isEmpty_eq_true] at h
      rcases List.mem_cons.mp hc with he | hr
      · exact Or.inr (he.trans hx)
      · refine Or.inl (takeDigits_digits r2 c ?_)
        have hk := takeDigits_append r2
        rw [h.2, List.append_nil] at hk
        rw [hk]
        exact hr
    · rw [if_neg hx] at h
      exact absurd h (by simp)

theorem isNumericBody_chars : ∀ b : Chars,
    (if (takeDigits b).1 = [] then false else isNumericTail (takeDigits b).2) = true →
    ∀ c ∈ b, c.isDigit = true ∨ c = '.' := by
  intro b h c hc
  by_cases hd : (takeDigits b).1 = []
  · rw [if_pos hd] at h
    exact absurd h (by simp)
  · rw [if_neg hd] at h
    rw [← takeDigits_append b] at hc
    rcases List.mem_append.mp hc with h1 | h2
    · exact Or.inl (takeDigits_digits b c h1)
    · exact isNumericTail_chars _ h c h2

theorem isNumericLit_chars : ∀ l, isNumericLit l = true →
    ∀ c ∈ l, c.isDigit = true ∨ c = '-' ∨ c = '.' := by
  intro l h c hc
  simp only [isNumericLit] at h
  by_cases hm : l.head? = some '-'
  · rw [if_pos hm] at h
    cases l with
    | nil => simp at hm
    | cons a as =>
      simp only [List.head?_cons, Option.some.injEq] at hm
      rcases List.mem_cons.mp hc with he | hr
      · exact Or.inr (Or.inl (he.trans hm))
      · rcases isNumericBody_chars as h c hr with h1 | h2
        · exact Or.inl h1
        · exact Or.inr (Or.inr h2)
  · rw [if_neg hm] at h
    rcases isNumericBody_chars l h c hc with h1 | h2
    · exact Or.inl h1
    · exact Or.inr (Or.inr h2)

theorem isNumericLit_no_q (l : Chars) (h : isNumericLit l = true) : '?' ∉ l := by
  intro hq
  rcases isNumericLit_chars l h '?' hq with h1 | h2 | h3
  · exact absurd h1 (by decide)
  · exact absurd h2 (by decide)
  · exact absurd h3 (by decide)

theorem normalize_numeric (p : Parameter) (e : Bool)
    (hty : p.type ∈ NUMERIC_TYPES)
    (hval : isNumericLit (trimChars p.original) = true) :
    (normalize p e).1.error = p.error ∧ '?' ∉ (normalize p e).1.normalized
      ∧ (normalize p e).2 = [] := by
  by_cases hnull : lowerStr p.original = "null".data
  · simp only [normalize]
    rw [if_pos hnull]
    refine ⟨rfl, ?_, rfl⟩
    show '?' ∉ "NULL".data
    decide
  · have hty4 : p.type = "INTEGER".data ∨ p.type = "BIGINT".data
        ∨ p.type = "DECIMAL".data ∨ p.type = "DOUBLE".data := by
      simpa [NUMERIC_TYPES] using hty
    have hbool : p.type ∉ BOOLEAN_TYPES := by
      rcases hty4 with h | h | h | h <;> rw [h] <;> decide
    have hstr : p.type ∉ STRING_TYPES := by
      rcases hty4 with h | h | h | h <;> rw [h] <;> decide
    simp only [normalize]
    rw [if_neg hnull, if_neg hbool, if_neg hstr, if_pos hty, if_pos hval]
    exact ⟨rfl, isNumericLit_no_q _ hval, rfl⟩

theorem countQ_substPositional : ∀ (s : Chars) (lits : List Chars),
    (∀ x ∈ lits, '?' ∉ x) → countQ s = lits.length →
    countQ (substPositional s lits) = 0 := by
  intro s
  induction s with
  | nil =>
    intro lits _ _
    rfl
  | cons c cs ih =>
    intro lits hl hc
    by_cases hq : c = '?'
    · subst hq
      cases lits with
      | nil =>
        rw [countQ, List.count_cons_self] at hc
        simp at hc
      | cons l ls =>
        rw [substPositional, if_pos rfl, countQ, List.count_append]
        have h1 : List.count '?' l = 0 :=
          List.count_eq_zero.mpr (hl l (List.mem_cons_self _ _))
        have h2 : countQ (substPositional cs ls) = 0 := by
          refine ih ls (fun x hx => hl x (List.mem_cons_of_mem _ hx)) ?_
          rw [countQ, List.count_cons_self] at hc
          rw [List.length_cons] at hc
          rw [countQ]
          omega
        rw [countQ] at h2
        rw [h1, h2]
    · have hne : ('?' : Char) ≠ c := fun h => hq h.symm
      have hc' : countQ cs = lits.length ∨ countQ cs = lits.length := Or.inl (by
        rw [countQ, List.count_cons_of_ne hne] at hc
        rw [countQ]
        exact hc)
      have hcs : countQ cs = lits.length := hc'.elim id id
      cases lits with
      | nil =>
        rw [substPositional, countQ, List.count_cons_of_ne hne]
        rw [substPositional_nil_lits]
        rw [countQ] at hcs
        simpa using hcs
      | cons l ls =>
        rw [substPositional, if_neg hq, countQ, List.count_cons_of_ne hne]
        exact ih (l :: ls) hl hcs

/-- C1: the validation gate of `process`: a final SQL exists iff there is
no normalization error and the placeholder count equals the binding count;
with errors there is no final SQL and exactly one error diagnostic is
appended per erroring binding and nothing else (in particular no
count-mismatch diagnostic); with no errors but differing counts there is
no final SQL and the count-mismatch diagnostic is appended. -/
theorem c1_validation_gate (sql logs : Chars) (e : Bool) :
    (((process sql logs e).final_sql).isSome = true ↔
      ((process sql logs e).params.filter (fun p => p.error.isSome) = []
        ∧ (process sql logs e).placeholders = (process sql logs e).params.length))
    ∧ ((process sql logs e).params.filter (fun p => p.error.isSome) ≠ [] →
        (process sql logs e).final_sql = none
        ∧ (∀ p ∈ (process sql logs e).params.filter (fun p => p.error.isSome),
            errMsg p ∈ (process sql logs e).diagnostics)
        ∧ ∃ pre, (process sql logs e).diagnostics
            = pre ++ ((process sql logs e).params.filter
                (fun p => p.error.isSome)).map errMsg)
    ∧ ((process sql logs e).params.filter (fun p => p.error.isSome) = [] →
        (process sql logs e).placeholders ≠ (process sql logs e).params.length →
        (process sql logs e).final_sql = none
        ∧ mismatchMsg (process sql logs e).placeholders
            ((process sql logs e).params.length) ∈ (process sql logs e).diagnostics) := by
  simp only [process]
  split_ifs with h1 h2
  · refine ⟨?_, ?_, ?_⟩
    · constructor
      · intro h
        exact absurd h (by simp)
      · intro h
        exact absurd h.1 h1
    · intro _
      refine ⟨rfl, ?_, ⟨_, rfl⟩⟩
      intro p hp
      exact List.mem_append_right _ (List.mem_map_of_mem _ hp)
    · intro h
      exact absurd h h1
  · rw [not_ne_iff] at h1
    refine ⟨?_, ?_, ?_⟩
    · constructor
      · intro h
        exact absurd h (by simp)
      · intro h
        exact absurd h.2 h2
    · intro h
      rw [h1] at h
      exact absurd rfl h
    · intro _ _
      exact ⟨rfl, List.mem_append_right _ (List.mem_singleton_self _)⟩
  · rw [not_ne_iff] at h1 h2
    refine ⟨?_, ?_, ?_⟩
    · constructor
      · intro _
        exact ⟨h1, h2⟩
      · intro _
        simp
    · intro h
      rw [h1] at h
      exact absurd rfl h
    · intro _ h
      exact absurd h2 h

/-- Witness for C1: a bad boolean kills the final SQL with its error
diagnostic appended; a clean binding set with a count mismatch kills the
final SQL with the mismatch diagnostic. -/
theorem c1_witness :
    (process ("?".data) ("binding parameter [1] as [BOOLEAN] - [Maybe]".data)
        true).final_sql = none
    ∧ (process ("a=? b=? c=?".data)
        ("binding parameter [1] as [INTEGER] - [5]".data) true).final_sql = none
    ∧ mismatchMsg
        (process ("a=? b=? c=?".data)
          ("binding parameter [1] as [INTEGER] - [5]".data) true).placeholders
        ((process ("a=? b=? c=?".data)
          ("binding parameter [1] as [INTEGER] - [5]".data) true).params.length)
      ∈ (process ("a=? b=? c=?".data)
          ("binding parameter [1] as [INTEGER] - [5]".data) true).diagnostics := by
  have hA := (c1_validation_gate ("?".data)
    ("binding parameter [1] as [BOOLEAN] - [Maybe]".data) true).2.1 (by decide)
  have hB := (c1_validation_gate ("a=? b=? c=?".data)
    ("binding parameter [1] as [INTEGER] - [5]".data) true).2.2 (by decide) (by decide)
  exact ⟨hA.1, hB.1, hB.2⟩

/-- C3: `process` is a total function of its three inputs: it always
returns a structured `BindResult` whose `param_count` mirrors the binding
list, whose `placeholders` is the `?`-count of the template, and with one
binding per extracted parameter; in the embedding no input can make it
fail to produce this structure. -/
theorem c3_total_structured_result (sql logs : Chars) (e : Bool) :
    ∃ r : BindResult, process sql logs e = r
      ∧ r.param_count = r.params.length
      ∧ r.placeholders = countQ sql
      ∧ r.params.length = (parse_logs logs).1.length := by
  refine ⟨process sql logs e, rfl, ?_, ?_, ?_⟩
  · simp only [process]
    split_ifs <;> rfl
  · simp only [process]
    split_ifs <;> rfl
  · simp only [process]
    split_ifs <;> simp

/-- C8: when every extracted binding is numeric-typed with a numerically
valid value and the placeholder count equals the binding count, the
pipeline yields a final SQL equal to the positional substitution of the
normalized literals — one substitution per placeholder — with no `?`
remaining. -/
theorem c8_numeric_roundtrip (sql logs : Chars) (e : Bool)
    (hall : ∀ p ∈ (parse_logs logs).1,
      p.type ∈ NUMERIC_TYPES ∧ isNumericLit (trimChars p.original) = true)
    (hcount : countQ sql = (parse_logs logs).1.length) :
    (process sql logs e).final_sql
      = some (substPositional sql
          ((process sql logs e).params.map (·.normalized)))
    ∧ countQ (substPositional sql
        ((process sql logs e).params.map (·.normalized))) = 0 := by
  have herr : ∀ p ∈ (parse_logs logs).1, (normalize p e).1.error = none := by
    intro p hp
    have h0 : p.error = none := by
      obtain ⟨m, -, he⟩ := parse_logs_from_match logs p hp
      rw [he]
      rfl
    rw [(normalize_numeric p e (hall p hp).1 (hall p hp).2).1, h0]
  have hparamsnoq : ∀ p ∈ ((parse_logs logs).1.map (fun p => normalize p e)).map Prod.fst,
      '?' ∉ p.normalized := by
    intro p hp
    rw [List.map_map] at hp
    obtain ⟨q, hq, he⟩ := List.mem_map.mp hp
    have h2 : (normalize q e).1 = p := he
    rw [← h2]
    exact (normalize_numeric q e (hall q hq).1 (hall q hq).2).2.1
  have hfil : (((parse_logs logs).1.map (fun p => normalize p e)).map Prod.fst).filter
      (fun p => p.error.isSome) = [] := by
    rw [List.filter_eq_nil_iff]
    intro p hp
    rw [List.map_map] at hp
    obtain ⟨q, hq, he⟩ := List.mem_map.mp hp
    have h2 : (normalize q e).1 = p := he
    rw [← h2]
    simp [herr q hq]
  have hlen : ((((parse_logs logs).1.map (fun p => normalize p e)).map Prod.fst)).length
      = (parse_logs logs).1.length := by simp
  have hproc : process sql logs e =
      ⟨((parse_logs logs).1.map (fun p => normalize p e)).map Prod.fst,
        countQ sql,
        (((parse_logs logs).1.map (fun p => normalize p e)).map Prod.fst).length,
        some (bind_sql sql
          (((parse_logs logs).1.map (fun p => normalize p e)).map Prod.fst)),
        (parse_logs logs).2
          ++ (((parse_logs logs).1.map (fun p => normalize p e)).map Prod.snd).flatten⟩ := by
    simp only [process]
    rw [if_neg (by rw [not_ne_iff]; exact hfil),
      if_neg (by rw [not_ne_iff, hlen]; exact hcount)]
  rw [hproc]
  dsimp only
  constructor
  · rw [bind_sql_eq_subst _ sql hparamsnoq]
  · refine countQ_substPositional sql _ ?_ ?_
    · intro x hx
      obtain ⟨p, hp, he⟩ := List.mem_map.mp hx
      rw [← he]
      exact hparamsnoq p hp
    · rw [List.length_map, hlen]
      exact hcount

/-- Witness for C8: two INTEGER bindings fill both placeholders, and the
resulting SQL contains no `?`. -/
theorem c8_witness :
    (process ("a=? b=?".data)
        ("binding parameter [1] as [INTEGER] - [5]\nbinding parameter [2] as [INTEGER] - [7]".data)
        true).final_sql
      = some (substPositional ("a=? b=?".data)
          ((process ("a=? b=?".data)
              ("binding parameter [1] as [INTEGER] - [5]\nbinding parameter [2] as [INTEGER] - [7]".data)
              true).params.map (·.normalized)))
    ∧ countQ ((process ("a=? b=?".data)
        ("binding parameter [1] as [INTEGER] - [5]\nbinding parameter [2] as [INTEGER] - [7]".data)
        true).final_sql.getD ['?']) = 0 := by
  have h := c8_numeric_roundtrip ("a=? b=?".data)
    ("binding parameter [1] as [INTEGER] - [5]\nbinding parameter [2] as [INTEGER] - [7]".data)
    true (by decide) (by decide)
  refine ⟨h.1, ?_⟩
  rw [h.1]
  simpa using h.2

end HBV
